import Mathlib

/-!
Verification development for the osm2rail repository.

The Rust sources (src/lib.rs and src/bin/explore_tags.rs) are shallowly
embedded below:

* `OsmRailway`, `RailwaySegment`, `OsmNode` mirror the structs of
  src/lib.rs; `HashMap`s keyed by identifiers are modelled as association
  lists (`List (κ × β)`), `HashSet<i64>` membership as a boolean predicate
  `Int → Bool`, and maps used only through `get` as functions
  `Int → Option _`.
* Rust's stateful `slice::split_inclusive` call of
  `OsmRailway::to_railway_segments` (the closure sees the running element
  index) is embedded as `splitInclIdx`.  As in Rust, an empty slice yields
  no runs, and a match on the last element does not produce a trailing
  empty run.
* `f64` coordinates and distances are modelled over ordered-algebra type
  parameters, and the external `geo` crate's `Haversine::distance` is a
  function parameter `dist` of the embedded `get_distance`; the Rust
  `found_count`/`not_found_count` locals are write-only diagnostics and do
  not influence the returned value, so they are omitted.
-/

structure OsmNode (α : Type) where
  lat : α
  lon : α
  tags : List (String × String)
  deriving DecidableEq

structure OsmRailway where
  name : String
  way_id : Int
  node_ids : List Int
  tags : List (String × String)
  deriving DecidableEq

structure RailwaySegment where
  name : String
  way_id : Int
  node_ids : List Int
  deriving DecidableEq

structure Point (α : Type) where
  x : α
  y : α
  deriving DecidableEq

/-- Model of Rust `slice::split_inclusive` as used in
`OsmRailway::to_railway_segments`: the predicate also receives the running
index maintained by the Rust closure (`index` starts at `0` and is bumped on
every call).  An empty slice yields no runs; when the predicate matches the
last element, the run ending there is the final run (no empty trailing run).
-/
def splitInclIdx (p : Nat → Int → Bool) : Nat → List Int → List (List Int)
  | _, [] => []
  | i, x :: xs =>
    if p i x then
      [x] :: splitInclIdx p (i + 1) xs
    else
      match splitInclIdx p (i + 1) xs with
      | [] => [[x]]
      | r :: rs => (x :: r) :: rs

/-- Model of the stateful `map` in `OsmRailway::to_railway_segments`: each
run after the first is prefixed with `previous_node`, the last node of the
previous raw run (`previous_node = nodes.last().cloned()`). -/
def addPrev : Option Int → List (List Int) → List (List Int)
  | _, [] => []
  | prev, run :: rest =>
    (match prev with
     | some p => p :: run
     | none => run) :: addPrev run.getLast? rest

/-- Embedding of `OsmRailway::to_railway_segments` (src/lib.rs): split the
way's node list after every node that is an intersection and is not at
index 0, then prefix each later run with the previous run's last node. -/
def OsmRailway.to_railway_segments (r : OsmRailway) (intersections : Int → Bool) :
    List RailwaySegment :=
  (addPrev none
      (splitInclIdx (fun i n => decide (i ≠ 0) && intersections n) 0 r.node_ids)).map
    (fun ids => { name := r.name, way_id := r.way_id, node_ids := ids })

/-- Rust `HashMap::entry(k).or_insert(0); *count += 1`, on an association
list: bump the entry of key `k`, inserting it with count 1 when absent. -/
def bumpEntry {κ : Type} [DecidableEq κ] : List (κ × Int) → κ → List (κ × Int)
  | [], k => [(k, 1)]
  | (k', c) :: rest, k =>
    if k' = k then (k', c + 1) :: rest else (k', c) :: bumpEntry rest k

/-- Embedding of `OsmRailway::get_used_node_counts` (src/lib.rs): count how
many times each node id is used across all railways. -/
def OsmRailway.get_used_node_counts (railways : List OsmRailway) : List (Int × Int) :=
  railways.foldl (fun m r => r.node_ids.foldl bumpEntry m) []

/-- The `intersections` set computed inside `segment_railways` (src/lib.rs):
node ids whose use count is greater than 1. -/
def intersections (railways : List OsmRailway) : List Int :=
  ((OsmRailway.get_used_node_counts railways).filter (fun p => decide (1 < p.2))).map
    Prod.fst

/-- Embedding of `segment_railways` (src/lib.rs). -/
def segment_railways (railways : List OsmRailway) : List RailwaySegment :=
  railways.flatMap
    (fun r => r.to_railway_segments (fun n => (intersections railways).contains n))

/-- Concatenation of a segment list's node lists after dropping the first
node of every segment except the first (the reconstruction operation named
by the spec's invariant). -/
def reconstruct : List (List Int) → List Int
  | [] => []
  | s :: ss => s ++ ss.flatMap List.tail

theorem splitInclIdx_flatten (p : Nat → Int → Bool) :
    ∀ (l : List Int) (i : Nat), (splitInclIdx p i l).flatten = l := by
  intro l
  induction l with
  | nil => intro i; simp [splitInclIdx]
  | cons x xs ih =>
    intro i
    by_cases h : p i x = true
    · simp [splitInclIdx, h, ih]
    · simp only [splitInclIdx, h]
      simp only [Bool.false_eq_true, if_false]
      rcases hs : splitInclIdx p (i + 1) xs with _ | ⟨r, rs⟩
      · have := ih (i + 1)
        rw [hs] at this
        simp at this
        simp [this]
      · have := ih (i + 1)
        rw [hs] at this
        simpa using this

theorem splitInclIdx_ne_nil (p : Nat → Int → Bool) (i : Nat) (x : Int) (xs : List Int) :
    splitInclIdx p i (x :: xs) ≠ [] := by
  by_cases h : p i x = true
  · simp [splitInclIdx, h]
  · simp only [splitInclIdx, h]
    simp only [Bool.false_eq_true, if_false]
    rcases splitInclIdx p (i + 1) xs with _ | ⟨r, rs⟩ <;> simp

theorem splitInclIdx_ne_nil_of_ne_nil (p : Nat → Int → Bool) (i : Nat) (l : List Int)
    (h : l ≠ []) : splitInclIdx p i l ≠ [] := by
  rcases l with _ | ⟨x, xs⟩
  · exact absurd rfl h
  · exact splitInclIdx_ne_nil p i x xs

theorem not_nil_mem_splitInclIdx (p : Nat → Int → Bool) :
    ∀ (l : List Int) (i : Nat), [] ∉ splitInclIdx p i l := by
  intro l
  induction l with
  | nil => intro i; simp [splitInclIdx]
  | cons x xs ih =>
    intro i
    by_cases h : p i x = true
    · simp only [splitInclIdx, h, if_true]
      intro hmem
      rcases List.mem_cons.mp hmem with h1 | h1
      · exact (List.cons_ne_nil x []).symm h1
      · exact ih (i + 1) h1
    · simp only [splitInclIdx, h]
      simp only [Bool.false_eq_true, if_false]
      rcases hs : splitInclIdx p (i + 1) xs with _ | ⟨r, rs⟩
      · simp
      · intro hmem
        rcases List.mem_cons.mp hmem with h1 | h1
        · exact (List.cons_ne_nil x r).symm h1
        · exact ih (i + 1) (by rw [hs]; exact List.mem_cons_of_mem _ h1)

theorem getLast?_cons_of_ne_nil (a : Int) (l : List Int) (h : l ≠ []) :
    (a :: l).getLast? = l.getLast? := by
  rcases l with _ | ⟨b, t⟩
  · exact absurd rfl h
  · simp [List.getLast?_cons_cons]

theorem addPrev_tail_flatten :
    ∀ (runs : List (List Int)) (q : Int), (∀ u ∈ runs, u ≠ []) →
      (addPrev (some q) runs).flatMap List.tail = runs.flatten := by
  intro runs
  induction runs with
  | nil => intro q _; simp [addPrev]
  | cons run rest ih =>
    intro q hne
    have hrun : run ≠ [] := hne run (List.mem_cons_self _ _)
    rcases hlast : run.getLast? with _ | p
    · exact absurd (List.getLast?_eq_none_iff.mp hlast) hrun
    · simp only [addPrev, hlast]
      rw [List.flatMap_cons]
      simp only [List.tail_cons]
      rw [List.flatten_cons]
      rw [ih p (fun u hu => hne u (List.mem_cons_of_mem _ hu))]

/-- C1: concatenating the node lists of the segments of a way, dropping the
first node of every segment except the first, yields exactly the way's
original node list. -/
theorem reconstruction_of_way (r : OsmRailway) (J : Int → Bool) :
    reconstruct ((r.to_railway_segments J).map RailwaySegment.node_ids) = r.node_ids := by
  unfold OsmRailway.to_railway_segments
  rw [List.map_map]
  have hmapid :
      ∀ runs : List (List Int),
        runs.map (RailwaySegment.node_ids ∘
          (fun ids => RailwaySegment.mk r.name r.way_id ids)) = runs := by
    intro runs; simp [Function.comp_def]
  rw [hmapid]
  set p : Nat → Int → Bool := fun i n => decide (i ≠ 0) && J n with hp
  have hflat := splitInclIdx_flatten p r.node_ids 0
  rcases hs : splitInclIdx p 0 r.node_ids with _ | ⟨run, rest⟩
  · rw [hs] at hflat
    simp at hflat
    simp [addPrev, reconstruct, hflat]
  · rw [hs] at hflat
    have hne : ∀ u ∈ rest, u ≠ [] := by
      intro u hu hnil
      subst hnil
      exact not_nil_mem_splitInclIdx p r.node_ids 0 (by rw [hs]; exact List.mem_cons_of_mem _ hu)
    have hrun : run ≠ [] := by
      intro hnil; subst hnil
      exact not_nil_mem_splitInclIdx p r.node_ids 0 (by rw [hs]; exact List.mem_cons_self _ _)
    rcases hlast : run.getLast? with _ | q
    · exact absurd (List.getLast?_eq_none_iff.mp hlast) hrun
    · simp only [addPrev, hlast, reconstruct]
      rw [addPrev_tail_flatten rest q hne]
      rw [← List.flatten_cons, hflat]


/-- The number of positions `i > 0` of `l` whose node is in the junction set
`J`: the nodes at positions `i > 0` are exactly the elements of `l.drop 1`,
so this is the number of elements of `l.drop 1` satisfying `J`. -/
def juncPosCount (J : Int → Bool) (l : List Int) : Nat :=
  ((l.drop 1).filter J).length

/-- Number of non-final positions of `l` whose node satisfies `J`
(structural recursion used to reason about `splitInclIdx`). -/
def countSplits (J : Int → Bool) : List Int → Nat
  | [] => 0
  | [_] => 0
  | x :: y :: xs => (if J x then 1 else 0) + countSplits J (y :: xs)

theorem countSplits_eq_filter_dropLast (J : Int → Bool) :
    ∀ l : List Int, countSplits J l = (l.dropLast.filter J).length := by
  intro l
  induction l with
  | nil => simp [countSplits]
  | cons x xs ih =>
    rcases xs with _ | ⟨y, t⟩
    · simp [countSplits]
    · have hd : (x :: y :: t).dropLast = x :: (y :: t).dropLast := by
        simp [List.dropLast_cons₂]
      rw [hd]
      by_cases hx : J x = true
      · simp only [countSplits, hx, if_true, List.filter_cons, hx]
        simp only [List.length_cons]
        rw [ih]
        omega
      · simp only [countSplits, hx]
        simp only [Bool.false_eq_true, if_false, List.filter_cons, hx]
        rw [ih]
        omega

theorem splitInclIdx_length (J : Int → Bool) :
    ∀ (xs : List Int) (i : Nat), xs ≠ [] → 1 ≤ i →
      (splitInclIdx (fun i n => decide (i ≠ 0) && J n) i xs).length =
        1 + countSplits J xs := by
  intro xs
  induction xs with
  | nil => intro i h _; exact absurd rfl h
  | cons y zs ih =>
    intro i _ hi
    have hdec : decide (i ≠ 0) = true := by
      have hne : i ≠ 0 := by omega
      simp [hne]
    simp only [splitInclIdx, hdec, Bool.true_and]
    by_cases hy : J y = true
    · rw [if_pos hy]
      rcases zs with _ | ⟨z, t⟩
      · simp [splitInclIdx, countSplits]
      · rw [List.length_cons, ih (i + 1) (by simp) (by omega)]
        simp only [countSplits, hy, if_true]
        omega
    · rw [if_neg (by simp [hy])]
      rcases zs with _ | ⟨z, t⟩
      · simp [splitInclIdx, countSplits]
      · rcases hs : splitInclIdx (fun i n => decide (i ≠ 0) && J n) (i + 1) (z :: t)
          with _ | ⟨r, rs⟩
        · exact absurd hs (splitInclIdx_ne_nil _ _ _ _)
        · have hred :
              (match r :: rs with
               | [] => [[y]]
               | r :: rs => (y :: r) :: rs) = (y :: r) :: rs := rfl
          rw [hred]
          have hlen := ih (i + 1) (by simp) (by omega)
          rw [hs] at hlen
          simp only [List.length_cons] at hlen ⊢
          simp only [countSplits, hy]
          simp only [Bool.false_eq_true, if_false]
          omega

theorem to_railway_segments_length (r : OsmRailway) (J : Int → Bool)
    (h : r.node_ids ≠ []) :
    (r.to_railway_segments J).length = 1 + juncPosCount J r.node_ids.dropLast := by
  unfold OsmRailway.to_railway_segments
  rw [List.length_map]
  have haddPrev : ∀ (prev : Option Int) (runs : List (List Int)),
      (addPrev prev runs).length = runs.length := by
    intro prev runs
    induction runs generalizing prev with
    | nil => simp [addPrev]
    | cons run rest ih => simp only [addPrev, List.length_cons, ih]
  rw [haddPrev]
  rcases hl : r.node_ids with _ | ⟨x, xs⟩
  · exact absurd hl h
  · have h0 : (decide ((0 : Nat) ≠ 0) && J x) = false := by simp
    simp only [splitInclIdx, h0]
    simp only [Bool.false_eq_true, if_false]
    rcases xs with _ | ⟨y, t⟩
    · simp [splitInclIdx, juncPosCount]
    · rcases hs : splitInclIdx (fun i n => decide (i ≠ 0) && J n) 1 (y :: t)
        with _ | ⟨r', rs⟩
      · exact absurd hs (splitInclIdx_ne_nil _ _ _ _)
      · have hred :
            (match r' :: rs with
             | [] => [[x]]
             | r :: rs => (x :: r) :: rs) = (x :: r') :: rs := rfl
        rw [hred]
        have hlen := splitInclIdx_length J (y :: t) 1 (by simp) (le_refl 1)
        rw [hs] at hlen
        simp only [List.length_cons] at hlen ⊢
        have hd : (x :: y :: t).dropLast = x :: (y :: t).dropLast := by
          simp [List.dropLast_cons₂]
        rw [hd]
        unfold juncPosCount
        rw [List.drop_one, List.tail_cons, ← countSplits_eq_filter_dropLast]
        omega

/-- C2 counterexample: for the way `[2, 3]` with junction set `{3}` the code
returns one segment, while `1` plus the number of positions `i > 0` whose
node is in the junction set is `2`. -/
theorem split_count_claim_cex :
    ((OsmRailway.mk "w" 1 [2, 3] []).to_railway_segments (fun n => decide (n = 3))).length ≠
      1 + juncPosCount (fun n => decide (n = 3)) [2, 3] := by
  decide

/-- C2 (amended): for every way with a nonempty node list, the number of
segments equals `1` plus the number of positions `i` with `0 < i < len - 1`
whose node is in the junction set, i.e. the junction positions of
`node_ids.dropLast` (junctions at the last position add no split; an empty
way yields no segments). -/
theorem split_count_interior (r : OsmRailway) (J : Int → Bool)
    (h : r.node_ids ≠ []) :
    (r.to_railway_segments J).length = 1 + juncPosCount J r.node_ids.dropLast :=
  to_railway_segments_length r J h

theorem split_count_interior_witness :
    ([2, 3] : List Int) ≠ [] ∧
      ((OsmRailway.mk "w" 1 [2, 3] []).to_railway_segments (fun n => decide (n = 3))).length =
        1 + juncPosCount (fun n => decide (n = 3)) ([2, 3] : List Int).dropLast :=
  ⟨by decide, split_count_interior (OsmRailway.mk "w" 1 [2, 3] []) (fun n => decide (n = 3))
    (by decide)⟩

/-- C8: when the last node of a way of length at least 2 is a junction, no
extra trailing segment is produced: the segment count is `1` plus the number
of junction positions strictly inside the way (positions `0 < i < len - 1`,
counted here over `dropLast`). -/
theorem last_junction_no_extra_segment (r : OsmRailway) (J : Int → Bool)
    (hlen : 2 ≤ r.node_ids.length)
    (_hlast : J (r.node_ids.getD (r.node_ids.length - 1) 0) = true) :
    (r.to_railway_segments J).length = 1 + juncPosCount J r.node_ids.dropLast :=
  to_railway_segments_length r J (by intro hnil; rw [hnil] at hlen; simp at hlen)

theorem last_junction_no_extra_segment_witness :
    2 ≤ ([1, 2] : List Int).length ∧
      (fun n => decide (n = 2)) (([1, 2] : List Int).getD (([1, 2] : List Int).length - 1) 0) = true ∧
      ((OsmRailway.mk "w" 1 [1, 2] []).to_railway_segments (fun n => decide (n = 2))).length =
        1 + juncPosCount (fun n => decide (n = 2)) ([1, 2] : List Int).dropLast :=
  ⟨by decide, by decide,
    last_junction_no_extra_segment (OsmRailway.mk "w" 1 [1, 2] []) (fun n => decide (n = 2))
      (by decide) (by decide)⟩

theorem addPrev_some_two_le :
    ∀ (runs : List (List Int)) (p : Int), (∀ u ∈ runs, u ≠ []) →
      ∀ ids ∈ addPrev (some p) runs, 2 ≤ ids.length := by
  intro runs
  induction runs with
  | nil => intro p _ ids hmem; simp [addPrev] at hmem
  | cons run rest ih =>
    intro p hne ids hmem
    rw [show addPrev (some p) (run :: rest) = (p :: run) :: addPrev run.getLast? rest
        from rfl] at hmem
    have hrun : run ≠ [] := hne run (List.mem_cons_self _ _)
    rcases List.mem_cons.mp hmem with h1 | h1
    · subst h1
      have : 1 ≤ run.length := List.length_pos.mpr hrun
      simp only [List.length_cons]
      omega
    · rcases hq : run.getLast? with _ | q
      · exact absurd (List.getLast?_eq_none_iff.mp hq) hrun
      · rw [hq] at h1
        exact ih q (fun u hu => hne u (List.mem_cons_of_mem _ hu)) ids h1

/-- C5 counterexample: a way with 0 nodes produces no segments at all, not
one segment carrying the empty node sequence. -/
theorem degenerate_empty_way_cex :
    ((OsmRailway.mk "w" 1 [] []).to_railway_segments (fun _ => false)).length ≠ 1 := by
  decide

/-- C5 (amended): for a way with at least 2 nodes every segment has at least
2 nodes; a way with exactly 1 node yields one segment with its node
sequence unchanged; a way with 0 nodes yields no segments. -/
theorem segment_min_length (r : OsmRailway) (J : Int → Bool) :
    (2 ≤ r.node_ids.length → ∀ s ∈ r.to_railway_segments J, 2 ≤ s.node_ids.length) ∧
      (r.node_ids.length = 1 →
        r.to_railway_segments J = [RailwaySegment.mk r.name r.way_id r.node_ids]) ∧
      (r.node_ids.length = 0 → r.to_railway_segments J = []) := by
  refine ⟨?_, ?_, ?_⟩
  · intro hlen s hmem
    unfold OsmRailway.to_railway_segments at hmem
    rcases List.mem_map.mp hmem with ⟨ids, hids, hs⟩
    have hnid : s.node_ids = ids := by rw [← hs]
    rw [hnid]
    rcases hl : r.node_ids with _ | ⟨x, xs⟩
    · rw [hl] at hlen; simp at hlen
    · have hxs : xs ≠ [] := by
        intro hnil
        rw [hl, hnil] at hlen
        simp at hlen
      rw [hl] at hids
      have h0 : (decide ((0 : Nat) ≠ 0) && J x) = false := by simp
      simp only [splitInclIdx, h0] at hids
      simp only [Bool.false_eq_true, if_false] at hids
      rcases hsp : splitInclIdx (fun i n => decide (i ≠ 0) && J n) 1 xs
          with _ | ⟨r', rs⟩
      · exact absurd hsp (splitInclIdx_ne_nil_of_ne_nil _ _ _ hxs)
      · rw [hsp] at hids
        have hred :
            (match r' :: rs with
             | [] => [[x]]
             | r :: rs => (x :: r) :: rs) = (x :: r') :: rs := rfl
        rw [hred] at hids
        rw [show addPrev none ((x :: r') :: rs) =
            (x :: r') :: addPrev (x :: r').getLast? rs from rfl] at hids
        have hr' : r' ≠ [] := by
          intro hnil; subst hnil
          exact not_nil_mem_splitInclIdx _ _ _ (by rw [hsp]; exact List.mem_cons_self _ _)
        rcases List.mem_cons.mp hids with h1 | h1
        · subst h1
          have : 1 ≤ r'.length := List.length_pos.mpr hr'
          simp only [List.length_cons]
          omega
        · rw [getLast?_cons_of_ne_nil x r' hr'] at h1
          rcases hq : r'.getLast? with _ | q
          · exact absurd (List.getLast?_eq_none_iff.mp hq) hr'
          · rw [hq] at h1
            refine addPrev_some_two_le rs q ?_ ids h1
            intro u hu hnil
            subst hnil
            exact not_nil_mem_splitInclIdx _ _ _
              (by rw [hsp]; exact List.mem_cons_of_mem _ hu)
  · intro hlen
    rcases List.length_eq_one.mp hlen with ⟨x, hx⟩
    unfold OsmRailway.to_railway_segments
    rw [hx]
    simp [splitInclIdx, addPrev]
  · intro hlen
    have hx : r.node_ids = [] := List.length_eq_zero.mp hlen
    unfold OsmRailway.to_railway_segments
    rw [hx]
    simp [splitInclIdx, addPrev]

theorem segment_min_length_witness :
    2 ≤ ([1, 2, 3] : List Int).length ∧
      2 ≤ (((OsmRailway.mk "w" 1 [1, 2, 3] []).to_railway_segments
          (fun n => decide (n = 2))).headD (RailwaySegment.mk "" 0 [])).node_ids.length :=
  ⟨by decide,
    (segment_min_length (OsmRailway.mk "w" 1 [1, 2, 3] []) (fun n => decide (n = 2))).1
      (by decide)
      (((OsmRailway.mk "w" 1 [1, 2, 3] []).to_railway_segments
          (fun n => decide (n = 2))).headD (RailwaySegment.mk "" 0 []))
      (by decide)⟩

theorem addPrev_chain :
    ∀ (runs : List (List Int)) (prev : Option Int), (∀ u ∈ runs, u ≠ []) →
      List.Chain' (fun a b => ∃ j, a.getLast? = some j ∧ b.head? = some j)
        (addPrev prev runs) := by
  intro runs
  induction runs with
  | nil => intro prev _; simp [addPrev]
  | cons run rest ih =>
    intro prev hne
    have hrun : run ≠ [] := hne run (List.mem_cons_self _ _)
    rcases hq : run.getLast? with _ | q
    · exact absurd (List.getLast?_eq_none_iff.mp hq) hrun
    · rw [show addPrev prev (run :: rest) =
          (match prev with
           | some p => p :: run
           | none => run) :: addPrev run.getLast? rest from rfl]
      rw [hq]
      apply List.chain'_cons'.mpr
      constructor
      · intro y hy
        rcases rest with _ | ⟨run2, rest2⟩
        · simp [addPrev] at hy
        · rw [show addPrev (some q) (run2 :: rest2) =
              (q :: run2) :: addPrev run2.getLast? rest2 from rfl] at hy
          simp only [List.head?_cons, Option.mem_def, Option.some_inj] at hy
          subst hy
          refine ⟨q, ?_, rfl⟩
          rcases prev with _ | p
          · exact hq
          · rw [getLast?_cons_of_ne_nil p run hrun]
            exact hq
      · exact ih (some q) (fun u hu => hne u (List.mem_cons_of_mem _ hu))

/-- C4: at every cut the boundary node is both the last node of the segment
before the cut and the first node of the segment after it: consecutive
segments produced by `to_railway_segments` overlap in exactly that node. -/
theorem adjacent_segments_overlap (r : OsmRailway) (J : Int → Bool) :
    List.Chain'
      (fun a b => ∃ j, a.node_ids.getLast? = some j ∧ b.node_ids.head? = some j)
      (r.to_railway_segments J) := by
  unfold OsmRailway.to_railway_segments
  rw [List.chain'_map]
  apply addPrev_chain
  intro u hu hnil
  subst hnil
  exact not_nil_mem_splitInclIdx _ _ _ hu

/-- Lookup in an association list (model of `HashMap::get`): the value of
the first entry whose key is `k`. -/
def lookupEntry {κ β : Type} [DecidableEq κ] (m : List (κ × β)) (k : κ) : Option β :=
  (m.find? (fun p => decide (p.1 = k))).map Prod.snd

/-- The count stored for key `k`, zero when the key is absent. -/
def entryCount {κ : Type} [DecidableEq κ] (m : List (κ × Int)) (k : κ) : Int :=
  (lookupEntry m k).getD 0

/-- The keys of an association list. -/
def keysOf {κ β : Type} (m : List (κ × β)) : List κ :=
  m.map Prod.fst

theorem lookupEntry_bumpEntry {κ : Type} [DecidableEq κ] :
    ∀ (m : List (κ × Int)) (k k' : κ),
      lookupEntry (bumpEntry m k) k' =
        if k' = k then some (entryCount m k + 1) else lookupEntry m k' := by
  intro m
  induction m with
  | nil =>
    intro k k'
    by_cases h : k' = k
    · subst h
      simp [bumpEntry, lookupEntry, entryCount]
    · have h1 : decide (k = k') = false := by
        simp only [decide_eq_false_iff_not]
        intro hx; exact h hx.symm
      simp [bumpEntry, lookupEntry, entryCount, h, h1]
  | cons a rest ih =>
    intro k k'
    rcases a with ⟨a1, c⟩
    by_cases hak : a1 = k
    · subst hak
      simp only [bumpEntry, if_pos rfl]
      by_cases hk' : k' = a1
      · subst hk'
        simp [lookupEntry, entryCount]
      · have h1 : decide (a1 = k') = false := by
          simp only [decide_eq_false_iff_not]
          intro hx; exact hk' hx.symm
        simp [lookupEntry, entryCount, List.find?_cons, h1, hk']
    · simp only [bumpEntry, if_neg hak]
      by_cases hk' : k' = a1
      · subst hk'
        simp [lookupEntry, List.find?_cons, hak]
      · have h1 : decide (a1 = k') = false := by
          simp only [decide_eq_false_iff_not]
          intro hx; exact hk' hx.symm
        have h3 : decide (a1 = k) = false := by
          simp only [decide_eq_false_iff_not]; exact hak
        have h2 : entryCount ((a1, c) :: rest) k = entryCount rest k := by
          simp [entryCount, lookupEntry, List.find?_cons, h3]
        have h4 : lookupEntry ((a1, c) :: bumpEntry rest k) k' =
            lookupEntry (bumpEntry rest k) k' := by
          simp [lookupEntry, List.find?_cons, h1]
        have h5 : lookupEntry ((a1, c) :: rest) k' = lookupEntry rest k' := by
          simp [lookupEntry, List.find?_cons, h1]
        rw [h2, h4, h5]
        exact ih k k'

theorem entryCount_bumpEntry {κ : Type} [DecidableEq κ]
    (m : List (κ × Int)) (k k' : κ) :
    entryCount (bumpEntry m k) k' = entryCount m k' + if k' = k then 1 else 0 := by
  unfold entryCount
  rw [lookupEntry_bumpEntry]
  by_cases h : k' = k
  · subst h
    simp [entryCount]
  · simp [h]

theorem entryCount_foldl_bumpEntry :
    ∀ (l : List Int) (m : List (Int × Int)) (k : Int),
      entryCount (l.foldl bumpEntry m) k = entryCount m k + (l.count k : Int) := by
  intro l
  induction l with
  | nil => intro m k; simp
  | cons x xs ih =>
    intro m k
    rw [List.foldl_cons, ih (bumpEntry m x) k, entryCount_bumpEntry]
    have hcnt : (x :: xs).count k = xs.count k + if x = k then 1 else 0 := by
      rw [List.count_cons]
      by_cases h : x = k <;> simp [h]
    rw [hcnt]
    by_cases h : k = x
    · subst h
      simp
      omega
    · have h2 : ¬x = k := fun hx => h hx.symm
      simp [h, h2]

theorem entryCount_used_node_counts :
    ∀ (railways : List OsmRailway) (m : List (Int × Int)) (k : Int),
      entryCount (railways.foldl (fun m r => r.node_ids.foldl bumpEntry m) m) k =
        entryCount m k + (((railways.map OsmRailway.node_ids).flatten).count k : Int) := by
  intro railways
  induction railways with
  | nil => intro m k; simp
  | cons r rs ih =>
    intro m k
    rw [List.foldl_cons, ih, entryCount_foldl_bumpEntry]
    rw [List.map_cons, List.flatten_cons, List.count_append]
    push_cast
    ring

theorem mem_keysOf_bumpEntry {κ : Type} [DecidableEq κ] :
    ∀ (m : List (κ × Int)) (k x : κ), x ∈ keysOf (bumpEntry m k) → x ∈ keysOf m ∨ x = k := by
  intro m
  induction m with
  | nil =>
    intro k x hx
    simp [bumpEntry, keysOf] at hx
    exact Or.inr hx
  | cons a rest ih =>
    intro k x hx
    rcases a with ⟨a1, c⟩
    by_cases hak : a1 = k
    · rw [show bumpEntry ((a1, c) :: rest) k =
          if a1 = k then (a1, c + 1) :: rest else (a1, c) :: bumpEntry rest k from rfl,
        if_pos hak] at hx
      simp only [keysOf, List.map_cons] at hx ⊢
      exact Or.inl hx
    · rw [show bumpEntry ((a1, c) :: rest) k =
          if a1 = k then (a1, c + 1) :: rest else (a1, c) :: bumpEntry rest k from rfl,
        if_neg hak] at hx
      simp only [keysOf, List.map_cons, List.mem_cons] at hx ⊢
      rcases hx with h1 | h1
      · exact Or.inl (Or.inl h1)
      · rcases ih k x h1 with h2 | h2
        · exact Or.inl (Or.inr h2)
        · exact Or.inr h2

theorem nodup_keysOf_bumpEntry {κ : Type} [DecidableEq κ] :
    ∀ (m : List (κ × Int)) (k : κ), (keysOf m).Nodup → (keysOf (bumpEntry m k)).Nodup := by
  intro m
  induction m with
  | nil => intro k _; simp [bumpEntry, keysOf]
  | cons a rest ih =>
    intro k hnd
    rcases a with ⟨a1, c⟩
    simp only [keysOf, List.map_cons, List.nodup_cons] at hnd
    by_cases hak : a1 = k
    · rw [show bumpEntry ((a1, c) :: rest) k =
          if a1 = k then (a1, c + 1) :: rest else (a1, c) :: bumpEntry rest k from rfl,
        if_pos hak]
      simp only [keysOf, List.map_cons, List.nodup_cons]
      exact hnd
    · rw [show bumpEntry ((a1, c) :: rest) k =
          if a1 = k then (a1, c + 1) :: rest else (a1, c) :: bumpEntry rest k from rfl,
        if_neg hak]
      simp only [keysOf, List.map_cons, List.nodup_cons]
      constructor
      · intro hmem
        rcases mem_keysOf_bumpEntry rest k a1 hmem with h1 | h1
        · exact hnd.1 h1
        · exact hak h1
      · exact ih k hnd.2

theorem nodup_keysOf_foldl_bumpEntry :
    ∀ (l : List Int) (m : List (Int × Int)),
      (keysOf m).Nodup → (keysOf (l.foldl bumpEntry m)).Nodup := by
  intro l
  induction l with
  | nil => intro m h; exact h
  | cons x xs ih =>
    intro m h
    rw [List.foldl_cons]
    exact ih (bumpEntry m x) (nodup_keysOf_bumpEntry m x h)

theorem nodup_keysOf_used_node_counts (railways : List OsmRailway) :
    (keysOf (OsmRailway.get_used_node_counts railways)).Nodup := by
  unfold OsmRailway.get_used_node_counts
  have hgen : ∀ (rs : List OsmRailway) (m : List (Int × Int)),
      (keysOf m).Nodup → (keysOf (rs.foldl (fun m r => r.node_ids.foldl bumpEntry m) m)).Nodup := by
    intro rs
    induction rs with
    | nil => intro m h; exact h
    | cons r rest ih =>
      intro m h
      rw [List.foldl_cons]
      exact ih _ (nodup_keysOf_foldl_bumpEntry r.node_ids m h)
  exact hgen railways [] (by simp [keysOf])

theorem lookupEntry_of_mem_nodup {κ β : Type} [DecidableEq κ] :
    ∀ (m : List (κ × β)) (k : κ) (b : β), (keysOf m).Nodup → (k, b) ∈ m →
      lookupEntry m k = some b := by
  intro m
  induction m with
  | nil => intro k b _ hmem; simp at hmem
  | cons a rest ih =>
    intro k b hnd hmem
    rcases a with ⟨a1, c⟩
    simp only [keysOf, List.map_cons, List.nodup_cons] at hnd
    rcases List.mem_cons.mp hmem with h1 | h1
    · have hk : k = a1 := by rw [Prod.ext_iff] at h1; exact h1.1
      have hb : b = c := by rw [Prod.ext_iff] at h1; exact h1.2
      subst hk
      subst hb
      simp [lookupEntry, List.find?_cons]
    · have hne : ¬a1 = k := by
        intro hx
        subst hx
        exact hnd.1 (List.mem_map.mpr ⟨(a1, b), h1, rfl⟩)
      have h2 : decide (a1 = k) = false := by
        simp only [decide_eq_false_iff_not]; exact hne
      simp only [lookupEntry, List.find?_cons, h2]
      exact ih k b hnd.2 h1

theorem mem_of_lookupEntry_some {κ β : Type} [DecidableEq κ]
    (m : List (κ × β)) (k : κ) (b : β) (h : lookupEntry m k = some b) : (k, b) ∈ m := by
  unfold lookupEntry at h
  rcases hf : m.find? (fun p => decide (p.1 = k)) with _ | p
  · rw [hf] at h; simp at h
  · rw [hf] at h
    simp at h
    have hp1 : p.1 = k := by
      have := List.find?_some hf
      simpa using this
    have hpm : p ∈ m := List.mem_of_find?_eq_some hf
    have : p = (k, b) := by
      rcases p with ⟨p1, p2⟩
      simp only at hp1 h
      rw [hp1, h]
    rw [← this]
    exact hpm

/-- C3: a node id is in the junction set computed by `segment_railways`
via `get_used_node_counts` exactly when its total number of occurrences
across the node sequences of all ways combined is greater than 1 (a node
appearing twice within a single way counts twice). -/
theorem junctions_iff_multiuse (railways : List OsmRailway) (n : Int) :
    (intersections railways).contains n = true ↔
      1 < ((railways.map OsmRailway.node_ids).flatten).count n := by
  have hcount : entryCount (OsmRailway.get_used_node_counts railways) n =
      (((railways.map OsmRailway.node_ids).flatten).count n : Int) := by
    unfold OsmRailway.get_used_node_counts
    rw [entryCount_used_node_counts railways [] n]
    simp [entryCount, lookupEntry]
  constructor
  · intro hc
    have hmem : n ∈ (intersections railways) := by
      simpa using hc
    unfold intersections at hmem
    rcases List.mem_map.mp hmem with ⟨p, hp, hfst⟩
    rcases List.mem_filter.mp hp with ⟨hpm, hplt⟩
    have hlt : 1 < p.2 := by simpa using hplt
    have hlook : lookupEntry (OsmRailway.get_used_node_counts railways) n = some p.2 := by
      apply lookupEntry_of_mem_nodup _ _ _ (nodup_keysOf_used_node_counts railways)
      rw [← hfst]
      exact hpm
    have : entryCount (OsmRailway.get_used_node_counts railways) n = p.2 := by
      simp [entryCount, hlook]
    rw [hcount] at this
    omega
  · intro hlt
    have hpos : (1 : Int) < entryCount (OsmRailway.get_used_node_counts railways) n := by
      rw [hcount]
      exact_mod_cast hlt
    rcases hl : lookupEntry (OsmRailway.get_used_node_counts railways) n with _ | c
    · rw [show entryCount (OsmRailway.get_used_node_counts railways) n =
          (lookupEntry (OsmRailway.get_used_node_counts railways) n).getD 0 from rfl,
        hl] at hpos
      simp at hpos
    · have hc : entryCount (OsmRailway.get_used_node_counts railways) n = c := by
        simp [entryCount, hl]
      have hmem : (n, c) ∈ OsmRailway.get_used_node_counts railways :=
        mem_of_lookupEntry_some _ _ _ hl
      have hc1 : 1 < c := by rw [hc] at hpos; exact hpos
      have : n ∈ intersections railways := by
        unfold intersections
        apply List.mem_map.mpr
        refine ⟨(n, c), ?_, rfl⟩
        apply List.mem_filter.mpr
        exact ⟨hmem, by simpa using hc1⟩
      simpa using this

/-- Sanity check: the repository's own `test_segment_railways` scenario
(ways `[1,2,3,6,8,9]`, `[2,3]`, `[4,5,6,7]`) yields 7 segments. -/
theorem segment_railways_test_scenario :
    (segment_railways
        [OsmRailway.mk "way 1" 1 [1, 2, 3, 6, 8, 9] [],
          OsmRailway.mk "way 2" 2 [2, 3] [],
          OsmRailway.mk "way 3" 3 [4, 5, 6, 7] []]).length = 7 := by
  decide

/-- The resolved polyline of `RailwaySegment::get_distance` (src/lib.rs):
node ids are looked up in the node store and unresolved ids are silently
skipped (`filter_map`); each hit becomes `Point::new(n.lon, n.lat)`. -/
def resolvePoints {α : Type} (node_locations : Int → Option (OsmNode α))
    (ids : List Int) : List (Point α) :=
  ids.filterMap (fun node_id => (node_locations node_id).map (fun n => Point.mk n.lon n.lat))

/-- Embedding of `RailwaySegment::get_distance` (src/lib.rs): fold over the
consecutive pairs of the resolved polyline, summing `dist` (the external
`Haversine::distance`, passed as a parameter). -/
def RailwaySegment.get_distance {α R : Type} [Zero R] [Add R]
    (dist : Point α → Point α → R) (s : RailwaySegment)
    (node_locations : Int → Option (OsmNode α)) : R :=
  ((resolvePoints node_locations s.node_ids).zip
      ((resolvePoints node_locations s.node_ids).drop 1)).foldl
    (fun d pq => d + dist pq.1 pq.2) 0

/-- Sum of `dist` over consecutive pairs, in structural form. -/
def pairSum {α R : Type} [Zero R] [Add R] (dist : Point α → Point α → R) :
    List (Point α) → R
  | [] => 0
  | [_] => 0
  | a :: b :: rest => dist a b + pairSum dist (b :: rest)

theorem foldl_zip_eq_pairSum {α R : Type} [AddCommMonoid R]
    (dist : Point α → Point α → R) :
    ∀ (ls : List (Point α)) (init : R),
      (ls.zip (ls.drop 1)).foldl (fun d pq => d + dist pq.1 pq.2) init =
        init + pairSum dist ls := by
  intro ls
  induction ls with
  | nil => intro init; simp [pairSum]
  | cons a tl ih =>
    intro init
    rcases tl with _ | ⟨b, t⟩
    · simp [pairSum]
    · have hzip : ((a :: b :: t).zip ((a :: b :: t).drop 1)) =
          (a, b) :: ((b :: t).zip ((b :: t).drop 1)) := rfl
      rw [hzip, List.foldl_cons]
      rw [ih (init + dist a b)]
      rw [show pairSum dist (a :: b :: t) = dist a b + pairSum dist (b :: t) from rfl]
      rw [add_assoc]

/-- C6: whenever fewer than two of the segment's node ids resolve in the
node store, `get_distance` returns exactly 0 (unresolved ids are skipped by
construction, and the function is total). -/
theorem distance_zero_of_insufficient {α R : Type} [AddCommMonoid R]
    (dist : Point α → Point α → R) (s : RailwaySegment)
    (node_locations : Int → Option (OsmNode α))
    (h : (resolvePoints node_locations s.node_ids).length ≤ 1) :
    s.get_distance dist node_locations = 0 := by
  unfold RailwaySegment.get_distance
  rw [foldl_zip_eq_pairSum, zero_add]
  rcases hr : resolvePoints node_locations s.node_ids with _ | ⟨a, tl⟩
  · simp [pairSum]
  · rcases tl with _ | ⟨b, t⟩
    · simp [pairSum]
    · rw [hr] at h
      simp at h

/-- Witness for C6, the spec's concrete scenario: segment `[1, 2]` with
node 2 absent from the store and node 1 present resolves only one point,
and the distance is exactly 0 (for any distance function, here constantly
1). -/
theorem distance_zero_of_insufficient_witness :
    (resolvePoints (fun n => if n = 1 then some (OsmNode.mk 0 0 []) else none)
        (RailwaySegment.mk "s" 1 [1, 2]).node_ids).length ≤ 1 ∧
      (RailwaySegment.mk "s" 1 [1, 2]).get_distance
          (fun _ _ => (1 : Int))
          (fun n => if n = 1 then some (OsmNode.mk (0 : Int) 0 []) else none) = 0 :=
  ⟨by decide,
    distance_zero_of_insufficient (fun _ _ => (1 : Int)) (RailwaySegment.mk "s" 1 [1, 2])
      (fun n => if n = 1 then some (OsmNode.mk (0 : Int) 0 []) else none) (by decide)⟩

theorem pairSum_nonneg {α R : Type} [OrderedAddCommMonoid R]
    (dist : Point α → Point α → R) (hnn : ∀ a b, 0 ≤ dist a b) :
    ∀ ls : List (Point α), 0 ≤ pairSum dist ls := by
  intro ls
  induction ls with
  | nil => exact le_refl _
  | cons a tl ih =>
    rcases tl with _ | ⟨b, t⟩
    · exact le_refl _
    · exact add_nonneg (hnn a b) ih

theorem pairSum_cons_le {α R : Type} [OrderedAddCommMonoid R]
    (dist : Point α → Point α → R)
    (htri : ∀ a b c, dist a c ≤ dist a b + dist b c)
    (hnn : ∀ a b, 0 ≤ dist a b) (a y : Point α) (l : List (Point α)) :
    pairSum dist (a :: l) ≤ dist a y + pairSum dist (y :: l) := by
  rcases l with _ | ⟨b, t⟩
  · simpa [pairSum] using hnn a y
  · rw [show pairSum dist (a :: b :: t) = dist a b + pairSum dist (b :: t) from rfl]
    rw [show pairSum dist (y :: b :: t) = dist y b + pairSum dist (b :: t) from rfl]
    rw [← add_assoc]
    exact add_le_add_right (htri a y b) _

theorem pairSum_cons_mono {α R : Type} [OrderedAddCommMonoid R]
    (dist : Point α → Point α → R)
    (htri : ∀ a b c, dist a c ≤ dist a b + dist b c)
    (hnn : ∀ a b, 0 ≤ dist a b)
    {xs ys : List (Point α)} (h : xs.Sublist ys) :
    ∀ a, pairSum dist (a :: xs) ≤ pairSum dist (a :: ys) := by
  induction h with
  | slnil => intro a; exact le_refl _
  | cons y h ih =>
    intro a
    exact le_trans (ih a) (pairSum_cons_le dist htri hnn a y _)
  | cons₂ x h ih =>
    intro a
    rw [show pairSum dist (a :: x :: _) = dist a x + pairSum dist (x :: _) from rfl]
    rw [show pairSum dist (a :: x :: _) = dist a x + pairSum dist (x :: _) from rfl]
    exact add_le_add_left (ih x) _

theorem pairSum_le_cons {α R : Type} [OrderedAddCommMonoid R]
    (dist : Point α → Point α → R) (hnn : ∀ a b, 0 ≤ dist a b)
    (y : Point α) (l : List (Point α)) :
    pairSum dist l ≤ pairSum dist (y :: l) := by
  rcases l with _ | ⟨b, t⟩
  · exact le_refl _
  · exact le_add_of_nonneg_left (hnn y b)

theorem pairSum_mono_sublist {α R : Type} [OrderedAddCommMonoid R]
    (dist : Point α → Point α → R)
    (htri : ∀ a b c, dist a c ≤ dist a b + dist b c)
    (hnn : ∀ a b, 0 ≤ dist a b)
    {xs ys : List (Point α)} (h : xs.Sublist ys) :
    pairSum dist xs ≤ pairSum dist ys := by
  induction h with
  | slnil => exact le_refl _
  | cons y h ih => exact le_trans ih (pairSum_le_cons dist hnn y _)
  | cons₂ x h ih => exact pairSum_cons_mono dist htri hnn h x

theorem filterMap_sublist {γ δ : Type} (f g : γ → Option δ)
    (h : ∀ x, f x = g x ∨ f x = none) :
    ∀ l : List γ, (l.filterMap f).Sublist (l.filterMap g) := by
  intro l
  induction l with
  | nil => simp
  | cons x t ih =>
    rw [List.filterMap_cons, List.filterMap_cons]
    rcases h x with hfg | hnone
    · rw [hfg]
      rcases g x with _ | d
      · exact ih
      · exact List.Sublist.cons₂ d ih
    · rw [hnone]
      rcases g x with _ | d
      · exact ih
      · exact List.Sublist.cons d ih

/-- C7: resolving one previously-absent node id referenced by the segment
(leaving every other lookup unchanged) never decreases `get_distance`,
provided the distance function is nonnegative and satisfies the triangle
inequality (both hold for the haversine great-circle distance). -/
theorem distance_monotone_resolution {α R : Type} [OrderedAddCommMonoid R]
    (dist : Point α → Point α → R)
    (htri : ∀ a b c, dist a c ≤ dist a b + dist b c)
    (hnn : ∀ a b, 0 ≤ dist a b)
    (s : RailwaySegment) (store store' : Int → Option (OsmNode α)) (m : Int)
    (_href : m ∈ s.node_ids) (habsent : store m = none) (nd : OsmNode α)
    (_hnew : store' m = some nd) (hsame : ∀ k, k ≠ m → store' k = store k) :
    s.get_distance dist store ≤ s.get_distance dist store' := by
  unfold RailwaySegment.get_distance
  rw [foldl_zip_eq_pairSum, foldl_zip_eq_pairSum, zero_add, zero_add]
  apply pairSum_mono_sublist dist htri hnn
  unfold resolvePoints
  apply filterMap_sublist
  intro x
  by_cases hx : x = m
  · subst hx
    rw [habsent]
    exact Or.inr rfl
  · rw [hsame x hx]
    exact Or.inl rfl

theorem distance_monotone_resolution_witness :
    (fun _ => (none : Option (OsmNode Int))) (1 : Int) = none ∧
      (RailwaySegment.mk "s" 1 [1, 2]).get_distance (fun _ _ => (0 : Int))
          (fun _ => (none : Option (OsmNode Int))) ≤
        (RailwaySegment.mk "s" 1 [1, 2]).get_distance (fun _ _ => (0 : Int))
          (fun n => if n = 1 then some (OsmNode.mk (0 : Int) 0 []) else none) :=
  ⟨rfl,
    distance_monotone_resolution (fun _ _ => (0 : Int))
      (fun _ _ _ => by simp) (fun _ _ => le_refl 0)
      (RailwaySegment.mk "s" 1 [1, 2])
      (fun _ => (none : Option (OsmNode Int)))
      (fun n => if n = 1 then some (OsmNode.mk (0 : Int) 0 []) else none)
      1 (by decide) rfl (OsmNode.mk (0 : Int) 0 [])
      (by decide) (fun k hk => by simp [hk])⟩

/-- The tag-frequency table of `get_used_tags` (src/bin/explore_tags.rs):
tag key to (tag value to occurrence count), as a nested association list. -/
abbrev TagTable := List (String × List (String × Int))

/-- One counting step of `get_used_tags`:
`used_tags.entry(k).or_insert(HashMap::new())` followed by
`.entry(v).or_insert(0); *count += 1`. -/
def bumpTag : TagTable → String → String → TagTable
  | [], k, v => [(k, bumpEntry [] v)]
  | (k', vm) :: rest, k, v =>
    if k' = k then (k', bumpEntry vm v) :: rest else (k', vm) :: bumpTag rest k v

/-- The counting loop of `get_used_tags`: for every element, for every
`(k, v)` tag pair, bump the nested counter.  The trait bound `T: HasTags`
is modelled by the `tagsOf` parameter returning an element's tag pairs. -/
def tagCountsOf {T : Type} (tagsOf : T → List (String × String)) (elements : List T) :
    TagTable :=
  elements.foldl
    (fun acc e => (tagsOf e).foldl (fun acc kv => bumpTag acc kv.1 kv.2) acc) []

/-- The threshold filter of `get_used_tags`: `value_map.retain(count >= t)`
inside `used_tags.retain(!value_map.is_empty())`. -/
def filterTagTable (t : Int) (m : TagTable) : TagTable :=
  (m.map (fun p => (p.1, p.2.filter (fun q => decide (t ≤ q.2))))).filter
    (fun p => !p.2.isEmpty)

/-- Embedding of `get_used_tags` (src/bin/explore_tags.rs). -/
def get_used_tags {T : Type} (tagsOf : T → List (String × String)) (elements : List T)
    (threshold : Option Int) : TagTable :=
  match threshold with
  | none => tagCountsOf tagsOf elements
  | some t => filterTagTable t (tagCountsOf tagsOf elements)

/-- Nested lookup in a tag table: the count recorded for key `k`, value `v`. -/
def lookupTag (m : TagTable) (k v : String) : Option Int :=
  (lookupEntry m k).bind (fun vm => lookupEntry vm v)

/-- The recorded count for key `k`, value `v`, zero when absent. -/
def tagCount (m : TagTable) (k v : String) : Int :=
  (lookupTag m k v).getD 0

theorem filterTagTable_cons (t : Int) (k : String) (vm : List (String × Int))
    (rest : TagTable) :
    filterTagTable t ((k, vm) :: rest) =
      if (vm.filter (fun q => decide (t ≤ q.2))).isEmpty then filterTagTable t rest
      else (k, vm.filter (fun q => decide (t ≤ q.2))) :: filterTagTable t rest := by
  unfold filterTagTable
  rw [List.map_cons, List.filter_cons]
  by_cases hne : (vm.filter (fun q => decide (t ≤ q.2))).isEmpty
  · simp [hne]
  · simp [hne]

theorem filter_threshold_idem (t : Int) (vm : List (String × Int)) :
    (vm.filter (fun q => decide (t ≤ q.2))).filter (fun q => decide (t ≤ q.2)) =
      vm.filter (fun q => decide (t ≤ q.2)) := by
  rw [List.filter_filter]
  simp

/-- C10: applying the threshold-`t` filter to a table that already resulted
from filtering with the same threshold leaves it unchanged. -/
theorem tag_filter_idempotent (t : Int) (m : TagTable) :
    filterTagTable t (filterTagTable t m) = filterTagTable t m := by
  induction m with
  | nil => rfl
  | cons p rest ih =>
    rcases p with ⟨k, vm⟩
    rw [filterTagTable_cons]
    by_cases hemp : (vm.filter (fun q => decide (t ≤ q.2))).isEmpty
    · rw [if_pos hemp]
      exact ih
    · rw [if_neg hemp]
      rw [filterTagTable_cons]
      rw [filter_threshold_idem]
      rw [if_neg hemp]
      rw [ih]

theorem lookupEntry_bumpTag :
    ∀ (m : TagTable) (k v k' : String),
      lookupEntry (bumpTag m k v) k' =
        if k' = k then some (bumpEntry ((lookupEntry m k).getD []) v)
        else lookupEntry m k' := by
  intro m
  induction m with
  | nil =>
    intro k v k'
    by_cases h : k' = k
    · subst h
      simp [bumpTag, lookupEntry]
    · have h1 : decide (k = k') = false := by
        simp only [decide_eq_false_iff_not]
        intro hx; exact h hx.symm
      simp [bumpTag, lookupEntry, h, h1]
  | cons a rest ih =>
    intro k v k'
    rcases a with ⟨a1, vm⟩
    by_cases hak : a1 = k
    · subst hak
      rw [show bumpTag ((a1, vm) :: rest) a1 v =
          if a1 = a1 then (a1, bumpEntry vm v) :: rest
          else (a1, vm) :: bumpTag rest a1 v from rfl, if_pos rfl]
      by_cases hk' : k' = a1
      · subst hk'
        simp [lookupEntry, List.find?_cons]
      · have h1 : decide (a1 = k') = false := by
          simp only [decide_eq_false_iff_not]
          intro hx; exact hk' hx.symm
        simp [lookupEntry, List.find?_cons, h1, hk']
    · rw [show bumpTag ((a1, vm) :: rest) k v =
          if a1 = k then (a1, bumpEntry vm v) :: rest
          else (a1, vm) :: bumpTag rest k v from rfl, if_neg hak]
      by_cases hk' : k' = a1
      · subst hk'
        rw [if_neg hak]
        simp [lookupEntry, List.find?_cons]
      · have h1 : decide (a1 = k') = false := by
          simp only [decide_eq_false_iff_not]
          intro hx; exact hk' hx.symm
        have h3 : decide (a1 = k) = false := by
          simp only [decide_eq_false_iff_not]; exact hak
        have h4 : lookupEntry ((a1, vm) :: bumpTag rest k v) k' =
            lookupEntry (bumpTag rest k v) k' := by
          simp [lookupEntry, List.find?_cons, h1]
        have h5 : lookupEntry ((a1, vm) :: rest) k' = lookupEntry rest k' := by
          simp [lookupEntry, List.find?_cons, h1]
        have h6 : lookupEntry ((a1, vm) :: rest) k = lookupEntry rest k := by
          simp [lookupEntry, List.find?_cons, h3]
        rw [h4, h5, h6]
        exact ih k v k'

theorem tagCount_bumpTag (m : TagTable) (k v k' v' : String) :
    tagCount (bumpTag m k v) k' v' =
      tagCount m k' v' + if k' = k ∧ v' = v then 1 else 0 := by
  unfold tagCount lookupTag
  rw [lookupEntry_bumpTag]
  by_cases hk : k' = k
  · subst hk
    rw [if_pos rfl]
    have hinner : ∀ w : String,
        (lookupEntry ((lookupEntry m k').getD []) w).getD 0 =
          ((lookupEntry m k').bind (fun vm => lookupEntry vm w)).getD 0 := by
      intro w
      rcases hm : lookupEntry m k' with _ | vm
      · simp [lookupEntry]
      · simp
    rw [show (some (bumpEntry ((lookupEntry m k').getD []) v)).bind
        (fun vm => lookupEntry vm v') =
        lookupEntry (bumpEntry ((lookupEntry m k').getD []) v) v' from rfl]
    rw [lookupEntry_bumpEntry]
    by_cases hv : v' = v
    · subst hv
      rw [if_pos rfl, if_pos ⟨rfl, rfl⟩]
      rw [← hinner v']
      simp [entryCount]
    · rw [if_neg hv, if_neg (fun hx => hv hx.2)]
      rw [hinner v']
      simp
  · rw [if_neg hk, if_neg (fun hx => hk hx.1)]
    simp

theorem tagCount_foldPairs :
    ∀ (ps : List (String × String)) (m : TagTable) (k v : String),
      tagCount (ps.foldl (fun acc kv => bumpTag acc kv.1 kv.2) m) k v =
        tagCount m k v + ((ps.countP (fun kv => decide (kv = (k, v)))) : Int) := by
  intro ps
  induction ps with
  | nil => intro m k v; simp
  | cons kv1 rest ih =>
    intro m k v
    rw [List.foldl_cons, ih, tagCount_bumpTag]
    rw [List.countP_cons]
    by_cases h : kv1 = (k, v)
    · have h1 : k = kv1.1 ∧ v = kv1.2 := by rw [h]; exact ⟨rfl, rfl⟩
      have h2 : decide (kv1 = (k, v)) = true := by simp [h]
      rw [if_pos h1, h2]
      simp
      ring
    · have h1 : ¬(k = kv1.1 ∧ v = kv1.2) := by
        intro hx
        apply h
        rcases kv1 with ⟨k1, v1⟩
        simp only at hx
        rw [Prod.ext_iff]
        exact ⟨hx.1.symm, hx.2.symm⟩
      have h2 : decide (kv1 = (k, v)) = false := by
        simp only [decide_eq_false_iff_not]; exact h
      rw [if_neg h1, h2]
      simp

theorem tagCount_counts {T : Type} (tagsOf : T → List (String × String)) :
    ∀ (es : List T) (m : TagTable) (k v : String),
      tagCount (es.foldl
          (fun acc e => (tagsOf e).foldl (fun acc kv => bumpTag acc kv.1 kv.2) acc) m) k v =
        tagCount m k v + (((es.flatMap tagsOf).countP (fun kv => decide (kv = (k, v)))) : Int) := by
  intro es
  induction es with
  | nil => intro m k v; simp
  | cons e rest ih =>
    intro m k v
    rw [List.foldl_cons, ih, tagCount_foldPairs]
    rw [List.flatMap_cons, List.countP_append]
    push_cast
    ring

theorem mem_keysOf_bumpTag :
    ∀ (m : TagTable) (k v x : String), x ∈ keysOf (bumpTag m k v) → x ∈ keysOf m ∨ x = k := by
  intro m
  induction m with
  | nil =>
    intro k v x hx
    simp [bumpTag, keysOf] at hx
    exact Or.inr hx
  | cons a rest ih =>
    intro k v x hx
    rcases a with ⟨a1, vm⟩
    by_cases hak : a1 = k
    · rw [show bumpTag ((a1, vm) :: rest) k v =
          if a1 = k then (a1, bumpEntry vm v) :: rest
          else (a1, vm) :: bumpTag rest k v from rfl, if_pos hak] at hx
      simp only [keysOf, List.map_cons] at hx ⊢
      exact Or.inl hx
    · rw [show bumpTag ((a1, vm) :: rest) k v =
          if a1 = k then (a1, bumpEntry vm v) :: rest
          else (a1, vm) :: bumpTag rest k v from rfl, if_neg hak] at hx
      simp only [keysOf, List.map_cons, List.mem_cons] at hx ⊢
      rcases hx with h1 | h1
      · exact Or.inl (Or.inl h1)
      · rcases ih k v x h1 with h2 | h2
        · exact Or.inl (Or.inr h2)
        · exact Or.inr h2

theorem nodup_keysOf_bumpTag :
    ∀ (m : TagTable) (k v : String), (keysOf m).Nodup → (keysOf (bumpTag m k v)).Nodup := by
  intro m
  induction m with
  | nil => intro k v _; simp [bumpTag, keysOf]
  | cons a rest ih =>
    intro k v hnd
    rcases a with ⟨a1, vm⟩
    simp only [keysOf, List.map_cons, List.nodup_cons] at hnd
    by_cases hak : a1 = k
    · rw [show bumpTag ((a1, vm) :: rest) k v =
          if a1 = k then (a1, bumpEntry vm v) :: rest
          else (a1, vm) :: bumpTag rest k v from rfl, if_pos hak]
      simp only [keysOf, List.map_cons, List.nodup_cons]
      exact hnd
    · rw [show bumpTag ((a1, vm) :: rest) k v =
          if a1 = k then (a1, bumpEntry vm v) :: rest
          else (a1, vm) :: bumpTag rest k v from rfl, if_neg hak]
      simp only [keysOf, List.map_cons, List.nodup_cons]
      constructor
      · intro hmem
        rcases mem_keysOf_bumpTag rest k v a1 hmem with h1 | h1
        · exact hnd.1 h1
        · exact hak h1
      · exact ih k v hnd.2

theorem nodup_keysOf_tagCountsOf {T : Type} (tagsOf : T → List (String × String))
    (es : List T) : (keysOf (tagCountsOf tagsOf es)).Nodup := by
  unfold tagCountsOf
  have hps : ∀ (ps : List (String × String)) (m : TagTable),
      (keysOf m).Nodup →
        (keysOf (ps.foldl (fun acc kv => bumpTag acc kv.1 kv.2) m)).Nodup := by
    intro ps
    induction ps with
    | nil => intro m h; exact h
    | cons kv rest ih =>
      intro m h
      rw [List.foldl_cons]
      exact ih _ (nodup_keysOf_bumpTag m kv.1 kv.2 h)
  have hgen : ∀ (es' : List T) (m : TagTable),
      (keysOf m).Nodup →
        (keysOf (es'.foldl
          (fun acc e => (tagsOf e).foldl (fun acc kv => bumpTag acc kv.1 kv.2) acc) m)).Nodup := by
    intro es'
    induction es' with
    | nil => intro m h; exact h
    | cons e rest ih =>
      intro m h
      rw [List.foldl_cons]
      exact ih _ (hps (tagsOf e) m h)
  exact hgen es [] (by simp [keysOf])

/-- All inner value maps of a tag table have distinct keys. -/
def innerNodup (m : TagTable) : Prop :=
  ∀ p ∈ m, (keysOf p.2).Nodup

theorem innerNodup_bumpTag :
    ∀ (m : TagTable) (k v : String), innerNodup m → innerNodup (bumpTag m k v) := by
  intro m
  induction m with
  | nil =>
    intro k v _ p hp
    simp [bumpTag] at hp
    rw [hp]
    exact nodup_keysOf_bumpEntry [] v (by simp [keysOf])
  | cons a rest ih =>
    intro k v hinner p hp
    rcases a with ⟨a1, vm⟩
    by_cases hak : a1 = k
    · rw [show bumpTag ((a1, vm) :: rest) k v =
          if a1 = k then (a1, bumpEntry vm v) :: rest
          else (a1, vm) :: bumpTag rest k v from rfl, if_pos hak] at hp
      rcases List.mem_cons.mp hp with h1 | h1
      · rw [h1]
        exact nodup_keysOf_bumpEntry vm v (hinner (a1, vm) (List.mem_cons_self _ _))
      · exact hinner p (List.mem_cons_of_mem _ h1)
    · rw [show bumpTag ((a1, vm) :: rest) k v =
          if a1 = k then (a1, bumpEntry vm v) :: rest
          else (a1, vm) :: bumpTag rest k v from rfl, if_neg hak] at hp
      rcases List.mem_cons.mp hp with h1 | h1
      · rw [h1]
        exact hinner (a1, vm) (List.mem_cons_self _ _)
      · exact ih k v (fun q hq => hinner q (List.mem_cons_of_mem _ hq)) p h1

theorem innerNodup_tagCountsOf {T : Type} (tagsOf : T → List (String × String))
    (es : List T) : innerNodup (tagCountsOf tagsOf es) := by
  unfold tagCountsOf
  have hps : ∀ (ps : List (String × String)) (m : TagTable),
      innerNodup m → innerNodup (ps.foldl (fun acc kv => bumpTag acc kv.1 kv.2) m) := by
    intro ps
    induction ps with
    | nil => intro m h; exact h
    | cons kv rest ih =>
      intro m h
      rw [List.foldl_cons]
      exact ih _ (innerNodup_bumpTag m kv.1 kv.2 h)
  have hgen : ∀ (es' : List T) (m : TagTable),
      innerNodup m → innerNodup (es'.foldl
        (fun acc e => (tagsOf e).foldl (fun acc kv => bumpTag acc kv.1 kv.2) acc) m) := by
    intro es'
    induction es' with
    | nil => intro m h; exact h
    | cons e rest ih =>
      intro m h
      rw [List.foldl_cons]
      exact ih _ (hps (tagsOf e) m h)
  exact hgen es [] (by intro p hp; simp at hp)

theorem lookupEntry_eq_none_of_not_mem_keys {κ β : Type} [DecidableEq κ]
    (m : List (κ × β)) (k : κ) (h : k ∉ keysOf m) : lookupEntry m k = none := by
  rcases hf : m.find? (fun p => decide (p.1 = k)) with _ | p
  · simp [lookupEntry, hf]
  · have hp1 : p.1 = k := by
      have := List.find?_some hf
      simpa using this
    have hpm : p ∈ m := List.mem_of_find?_eq_some hf
    exact absurd (List.mem_map.mpr ⟨p, hpm, hp1⟩) h

theorem mem_keysOf_filter {κ β : Type} (pred : κ × β → Bool) (m : List (κ × β)) (x : κ)
    (h : x ∈ keysOf (m.filter pred)) : x ∈ keysOf m := by
  rcases List.mem_map.mp h with ⟨p, hp, hfst⟩
  exact List.mem_map.mpr ⟨p, (List.filter_sublist m).mem hp, hfst⟩

theorem keysOf_filterTagTable_sub (t : Int) (m : TagTable) (x : String)
    (h : x ∈ keysOf (filterTagTable t m)) : x ∈ keysOf m := by
  unfold filterTagTable at h
  have h1 := mem_keysOf_filter _ _ _ h
  rcases List.mem_map.mp h1 with ⟨p, hp, hfst⟩
  rcases List.mem_map.mp hp with ⟨q, hq, hgq⟩
  apply List.mem_map.mpr
  refine ⟨q, hq, ?_⟩
  rw [← hfst, ← hgq]

theorem lookupEntry_filter_snd {κ β : Type} [DecidableEq κ] (w : β → Bool) :
    ∀ (m : List (κ × β)), (keysOf m).Nodup → ∀ k : κ,
      lookupEntry (m.filter (fun q => w q.2)) k =
        match lookupEntry m k with
        | none => none
        | some b => if w b then some b else none := by
  intro m
  induction m with
  | nil => intro _ k; simp [lookupEntry]
  | cons a rest ih =>
    intro hnd k
    rcases a with ⟨a1, b⟩
    simp only [keysOf, List.map_cons, List.nodup_cons] at hnd
    rw [List.filter_cons]
    by_cases hak : a1 = k
    · subst hak
      have hl : lookupEntry ((a1, b) :: rest) a1 = some b := by
        simp [lookupEntry, List.find?_cons]
      rw [hl]
      by_cases hw : w b = true
      · simp only [hw, if_true]
        have : lookupEntry ((a1, b) :: rest.filter (fun q => w q.2)) a1 = some b := by
          simp [lookupEntry, List.find?_cons]
        simp only [this]
      · simp only [hw]
        simp only [Bool.false_eq_true, if_false]
        apply lookupEntry_eq_none_of_not_mem_keys
        intro hmem
        exact hnd.1 (mem_keysOf_filter _ rest a1 hmem)
    · have h1 : decide (a1 = k) = false := by
        simp only [decide_eq_false_iff_not]; exact hak
      have h5 : lookupEntry ((a1, b) :: rest) k = lookupEntry rest k := by
        simp [lookupEntry, List.find?_cons, h1]
      rw [h5]
      by_cases hw : w b = true
      · simp only [hw, if_true]
        have h4 : lookupEntry ((a1, b) :: rest.filter (fun q => w q.2)) k =
            lookupEntry (rest.filter (fun q => w q.2)) k := by
          simp [lookupEntry, List.find?_cons, h1]
        rw [h4]
        exact ih hnd.2 k
      · simp only [hw]
        simp only [Bool.false_eq_true, if_false]
        exact ih hnd.2 k

theorem lookupEntry_filterTagTable (t : Int) :
    ∀ (m : TagTable), (keysOf m).Nodup → ∀ k : String,
      lookupEntry (filterTagTable t m) k =
        match lookupEntry m k with
        | none => none
        | some vm =>
          if (vm.filter (fun q => decide (t ≤ q.2))).isEmpty then none
          else some (vm.filter (fun q => decide (t ≤ q.2))) := by
  intro m
  induction m with
  | nil => intro _ k; simp [filterTagTable, lookupEntry]
  | cons a rest ih =>
    intro hnd k
    rcases a with ⟨a1, vm⟩
    simp only [keysOf, List.map_cons, List.nodup_cons] at hnd
    rw [filterTagTable_cons]
    by_cases hak : a1 = k
    · subst hak
      have hl : lookupEntry ((a1, vm) :: rest) a1 = some vm := by
        simp [lookupEntry, List.find?_cons]
      rw [hl]
      by_cases hemp : (vm.filter (fun q => decide (t ≤ q.2))).isEmpty
      · rw [if_pos hemp]
        simp only [hemp, if_true]
        apply lookupEntry_eq_none_of_not_mem_keys
        intro hmem
        exact hnd.1 (keysOf_filterTagTable_sub t rest a1 hmem)
      · rw [if_neg hemp]
        simp only [hemp]
        simp only [Bool.false_eq_true, if_false]
        simp [lookupEntry, List.find?_cons]
    · have h1 : decide (a1 = k) = false := by
        simp only [decide_eq_false_iff_not]; exact hak
      have h5 : lookupEntry ((a1, vm) :: rest) k = lookupEntry rest k := by
        simp [lookupEntry, List.find?_cons, h1]
      rw [h5]
      by_cases hemp : (vm.filter (fun q => decide (t ≤ q.2))).isEmpty
      · rw [if_pos hemp]
        exact ih hnd.2 k
      · rw [if_neg hemp]
        have h4 : lookupEntry ((a1, vm.filter (fun q => decide (t ≤ q.2))) :: filterTagTable t rest) k =
            lookupEntry (filterTagTable t rest) k := by
          simp [lookupEntry, List.find?_cons, h1]
        rw [h4]
        exact ih hnd.2 k

/-- C9: with no threshold `get_used_tags` returns the full count table,
whose entry for `(k, v)` is the number of occurrences of the tag pair
across all elements; with threshold `t` it returns the count table
restricted to entries with count at least `t`, and no key with an
empty value map survives. -/
theorem get_used_tags_spec {T : Type} (tagsOf : T → List (String × String))
    (es : List T) :
    get_used_tags tagsOf es none = tagCountsOf tagsOf es ∧
      (∀ k v : String,
        tagCount (tagCountsOf tagsOf es) k v =
          (((es.flatMap tagsOf).countP (fun kv => decide (kv = (k, v)))) : Int)) ∧
      (∀ (t : Int) (k v : String),
        lookupTag (get_used_tags tagsOf es (some t)) k v =
          match lookupTag (tagCountsOf tagsOf es) k v with
          | none => none
          | some c => if t ≤ c then some c else none) ∧
      (∀ t : Int, ∀ p ∈ get_used_tags tagsOf es (some t), p.2 ≠ []) := by
  refine ⟨rfl, ?_, ?_, ?_⟩
  · intro k v
    unfold tagCountsOf
    rw [tagCount_counts tagsOf es [] k v]
    have h0 : tagCount [] k v = 0 := rfl
    rw [h0, zero_add]
  · intro t k v
    show lookupTag (filterTagTable t (tagCountsOf tagsOf es)) k v = _
    unfold lookupTag
    rcases hk : lookupEntry (tagCountsOf tagsOf es) k with _ | vm
    · rw [lookupEntry_filterTagTable t _ (nodup_keysOf_tagCountsOf tagsOf es) k, hk]
      simp
    · rw [lookupEntry_filterTagTable t _ (nodup_keysOf_tagCountsOf tagsOf es) k, hk]
      have hred :
          (match some vm with
           | none => none
           | some vm =>
             if (vm.filter (fun q => decide (t ≤ q.2))).isEmpty then none
             else some (vm.filter (fun q => decide (t ≤ q.2)))) =
            (if (vm.filter (fun q => decide (t ≤ q.2))).isEmpty then none
             else some (vm.filter (fun q => decide (t ≤ q.2)))) := rfl
      rw [hred]
      have hbind : ((some vm).bind fun vm => lookupEntry vm v) = lookupEntry vm v := rfl
      rw [hbind]
      have hvmnd : (keysOf vm).Nodup :=
        innerNodup_tagCountsOf tagsOf es (k, vm) (mem_of_lookupEntry_some _ _ _ hk)
      by_cases hemp : (vm.filter (fun q => decide (t ≤ q.2))).isEmpty
      · rw [if_pos hemp]
        rcases hv : lookupEntry vm v with _ | c
        · simp
        · by_cases htc : t ≤ c
          · exfalso
            have hmemv : (v, c) ∈ vm := mem_of_lookupEntry_some _ _ _ hv
            have hmf : (v, c) ∈ vm.filter (fun q => decide (t ≤ q.2)) :=
              List.mem_filter.mpr ⟨hmemv, by simpa using htc⟩
            rw [List.isEmpty_iff] at hemp
            rw [hemp] at hmf
            simp at hmf
          · simp [htc]
      · rw [if_neg hemp]
        have hb2 :
            ((some (vm.filter (fun q => decide (t ≤ q.2)))).bind fun vm => lookupEntry vm v) =
              lookupEntry (vm.filter (fun q => decide (t ≤ q.2))) v := rfl
        rw [hb2]
        rw [lookupEntry_filter_snd (fun c => decide (t ≤ c)) vm hvmnd v]
        rcases hv : lookupEntry vm v with _ | c
        · rfl
        · by_cases htc : t ≤ c <;> simp [htc]
  · intro t p hp
    have hp' : p ∈ filterTagTable t (tagCountsOf tagsOf es) := hp
    unfold filterTagTable at hp'
    have hb := (List.mem_filter.mp hp').2
    simp at hb
    intro hnil
    rw [hnil] at hb
    simp at hb

theorem get_used_tags_spec_witness :
    (("a", [("b", (1 : Int))]) ∈
        get_used_tags (fun e => e) [[("a", "b")]] (some 1)) ∧
      (("a", [("b", (1 : Int))]) : String × List (String × Int)).2 ≠ [] :=
  ⟨by decide,
    (get_used_tags_spec (fun e => e) [[("a", "b")]]).2.2.2 1 ("a", [("b", 1)]) (by decide)⟩
